import Mathlib

/-!
Shallow embedding of the streaming speech-to-text pipeline in `src/main.ts`
(class `SpeechToTextPlugin`): the sample queue (`takeSamples`, `trimBacklog`,
`discardSamples`), the silence gate (`isMostlySilence`), the WAV encoder
(`encodeWav`), the transcript stitcher (`cleanTranscript`,
`dedupeConsecutiveWords`) and the settings sanitiser (`applyTuningSettings`).

JavaScript numbers are modelled as exact rationals plus an explicit NaN
(`JsNum`); floating-point rounding is abstracted away, which is exact for the
constants involved here.  Strings are modelled as `List Char`.
-/

/-- JavaScript number: either NaN or a finite value modelled as a rational.
(Infinities never arise in the code paths modelled here.) -/
inductive JsNum where
  | nan : JsNum
  | num : ℚ → JsNum
deriving DecidableEq

/-- JS `Math.min` on two numbers: NaN-propagating minimum. -/
def jsMin : JsNum → JsNum → JsNum
  | JsNum.nan, _ => JsNum.nan
  | _, JsNum.nan => JsNum.nan
  | JsNum.num a, JsNum.num b => JsNum.num (min a b)

/-- JS `Math.max` on two numbers: NaN-propagating maximum. -/
def jsMax : JsNum → JsNum → JsNum
  | JsNum.nan, _ => JsNum.nan
  | _, JsNum.nan => JsNum.nan
  | JsNum.num a, JsNum.num b => JsNum.num (max a b)

/-- JS comparison `x < 0` (false on NaN). -/
def jsLtZero : JsNum → Bool
  | JsNum.nan => false
  | JsNum.num q => decide (q < 0)

/-- Multiplication of a JS number by a finite constant (NaN-propagating). -/
def jsMulConst : JsNum → ℚ → JsNum
  | JsNum.nan, _ => JsNum.nan
  | JsNum.num q, c => JsNum.num (q * c)

/-- JS `Math.round`: floor of x + 1/2 (ties go up). -/
def jsRound (q : ℚ) : ℤ := ⌊q + 1 / 2⌋

/-- Truncation toward zero, as used by JS ToInteger / typed-array stores. -/
def ratTrunc (q : ℚ) : ℤ := if 0 ≤ q then ⌊q⌋ else ⌈q⌉

/-- JS ToInt16 as performed by an `Int16Array` store: NaN becomes 0, other
values are truncated toward zero and wrapped into [-32768, 32767]. -/
def toInt16 : JsNum → ℤ
  | JsNum.nan => 0
  | JsNum.num q => (ratTrunc q + 32768) % 65536 - 32768

/-- Per-sample 16-bit PCM conversion from `encodeWav` (src/main.ts lines
546-550): `s = Math.max(-1, Math.min(1, samples[i])); pcm[i] = s < 0 ?
s * 0x8000 : s * 0x7fff` stored into an `Int16Array`. -/
def pcm16 (x : JsNum) : ℤ :=
  let s := jsMax (JsNum.num (-1)) (jsMin (JsNum.num 1) x)
  toInt16 (if jsLtZero s then jsMulConst s 32768 else jsMulConst s 32767)

/-- Tuning-relevant slice of the persisted settings (src/main.ts `STTSettings`):
the three numeric fields read by `applyTuningSettings`. -/
structure TuningSettings where
  silenceThreshold : JsNum
  maxBufferedChunks : JsNum
  maxConsecutiveWordRepeats : JsNum

/-- Effective tuning state established by `applyTuningSettings`. -/
structure Tuning where
  silenceRmsThreshold : ℚ
  maxBufferedChunks : ℤ
  maxConsecutiveWordRepeats : ℤ

/-- Embedding of `applyTuningSettings` (src/main.ts lines 455-467):
each field is validated with `Number.isFinite` plus a range guard and
otherwise replaced by its default (0.0015, 12, 2 respectively). -/
def applyTuningSettings (s : TuningSettings) : Tuning where
  silenceRmsThreshold :=
    match s.silenceThreshold with
    | JsNum.nan => 3 / 2000
    | JsNum.num q => max 0 q
  maxBufferedChunks :=
    match s.maxBufferedChunks with
    | JsNum.nan => 12
    | JsNum.num q => if 0 < q then jsRound q else 12
  maxConsecutiveWordRepeats :=
    match s.maxConsecutiveWordRepeats with
    | JsNum.nan => 2
    | JsNum.num q => if 1 ≤ q then jsRound q else 2

lemma ratTrunc_le (q : ℚ) (hi : ℤ) (h : q ≤ (hi : ℚ)) : ratTrunc q ≤ hi := by
  unfold ratTrunc
  split
  · exact le_trans (Int.floor_le_floor h) (by simp)
  · exact Int.ceil_le.mpr h

lemma le_ratTrunc (q : ℚ) (lo : ℤ) (h : (lo : ℚ) ≤ q) : lo ≤ ratTrunc q := by
  unfold ratTrunc
  split
  · exact Int.le_floor.mpr h
  · calc lo = ⌈(lo : ℚ)⌉ := by simp
    _ ≤ ⌈q⌉ := Int.ceil_le_ceil h

/-- C4 counterexample: the claim says the encoded value is
`round(clamp(s,-1,1) × 32767)` for nonnegative s, but at s = 1/2 the code
truncates 16383.5 to 16383 while rounding would give 16384. -/
theorem c4_pcm16_round_counterexample :
    pcm16 (JsNum.num (1 / 2)) = 16383 ∧ jsRound ((1 / 2 : ℚ) * 32767) = 16384 ∧
      (16383 : ℤ) ≠ 16384 := by
  refine ⟨?_, ?_, by norm_num⟩
  · simp only [pcm16, jsMin, jsMax, jsMulConst, jsLtZero, toInt16, ratTrunc]
    norm_num
  · unfold jsRound
    norm_num

/-- C4 (amended): the 16-bit PCM value written by `encodeWav` equals the
clamped sample scaled by 32768 (negative) or 32767 (nonnegative) and then
truncated toward zero (not rounded); NaN samples are encoded as 0. -/
theorem c4_pcm16_spec :
    (∀ q : ℚ, pcm16 (JsNum.num q) =
      ratTrunc (max (-1) (min 1 q) * (if q < 0 then 32768 else 32767))) ∧
      pcm16 JsNum.nan = 0 := by
  refine ⟨fun q => ?_, rfl⟩
  have hclamp : jsMax (JsNum.num (-1)) (jsMin (JsNum.num 1) (JsNum.num q)) =
      JsNum.num (max (-1) (min 1 q)) := rfl
  have hsign : (max (-1) (min 1 q) < 0) ↔ q < 0 := by
    constructor
    · intro h
      by_contra hq
      push_neg at hq
      have h0 : (0 : ℚ) ≤ max (-1) (min 1 q) :=
        le_max_of_le_right (le_min zero_le_one hq)
      linarith
    · intro h
      have h1 : min 1 q = q := min_eq_right (by linarith)
      rw [h1]
      exact max_lt (by norm_num) h
  simp only [pcm16, hclamp]
  by_cases hq : q < 0
  · have hbt : jsLtZero (JsNum.num (max (-1) (min 1 q))) = true := by
      simp only [jsLtZero, decide_eq_true_eq]
      exact hsign.mpr hq
    rw [hbt, if_pos rfl, if_pos hq]
    simp only [jsMulConst, toInt16]
    have hcl : (-1 : ℚ) ≤ max (-1) (min 1 q) := le_max_left _ _
    have hcu : max (-1) (min 1 q) < 0 := hsign.mpr hq
    have hb1 : (-32768 : ℚ) ≤ max (-1) (min 1 q) * 32768 := by nlinarith
    have hb2 : max (-1) (min 1 q) * 32768 ≤ 32767 := by nlinarith
    have t1 := le_ratTrunc (max (-1) (min 1 q) * 32768) (-32768) (by exact_mod_cast hb1)
    have t2 := ratTrunc_le (max (-1) (min 1 q) * 32768) 32767 (by exact_mod_cast hb2)
    omega
  · have hbf : jsLtZero (JsNum.num (max (-1) (min 1 q))) = false := by
      simp only [jsLtZero, decide_eq_false_iff_not]
      intro h
      exact hq (hsign.mp h)
    rw [hbf, if_neg (by simp), if_neg hq]
    simp only [jsMulConst, toInt16]
    push_neg at hq
    have hcl : (0 : ℚ) ≤ max (-1) (min 1 q) :=
      le_max_of_le_right (le_min zero_le_one hq)
    have hcu : max (-1) (min 1 q) ≤ 1 := max_le (by norm_num) (min_le_left _ _)
    have hb1 : (0 : ℚ) ≤ max (-1) (min 1 q) * 32767 := by nlinarith
    have hb2 : max (-1) (min 1 q) * 32767 ≤ 32767 := by nlinarith
    have t1 := le_ratTrunc (max (-1) (min 1 q) * 32767) 0 (by exact_mod_cast hb1)
    have t2 := ratTrunc_le (max (-1) (min 1 q) * 32767) 32767 (by exact_mod_cast hb2)
    omega

/-- C9 counterexample: with configured `maxConsecutiveWordRepeats = 0` the
effective repeat bound computed by `applyTuningSettings` is the default 2,
not the claimed clamp value 1. -/
theorem c9_repeats_counterexample :
    (applyTuningSettings
        ⟨JsNum.num 0, JsNum.num 12, JsNum.num 0⟩).maxConsecutiveWordRepeats = 2 ∧
      (2 : ℤ) ≠ 1 := by
  constructor
  · simp [applyTuningSettings]
  · decide

/-- C9 (amended): every configured finite `maxConsecutiveWordRepeats` value
below 1, and a NaN value, is treated as invalid and replaced by the default 2
(the code falls back to the default instead of clamping to 1). -/
theorem c9_repeats_below_one_default (st mb : JsNum) (q : ℚ) (h : q < 1) :
    (applyTuningSettings ⟨st, mb, JsNum.num q⟩).maxConsecutiveWordRepeats = 2 ∧
      (applyTuningSettings ⟨st, mb, JsNum.nan⟩).maxConsecutiveWordRepeats = 2 := by
  constructor
  · simp [applyTuningSettings, not_le.mpr h]
  · simp [applyTuningSettings]

/-- Witness for C9's amended theorem at the concrete configured value 0. -/
theorem c9_repeats_below_one_default_witness :
    (0 : ℚ) < 1 ∧
      ((applyTuningSettings
          ⟨JsNum.num 0, JsNum.num 12, JsNum.num 0⟩).maxConsecutiveWordRepeats = 2 ∧
        (applyTuningSettings
          ⟨JsNum.num 0, JsNum.num 12, JsNum.nan⟩).maxConsecutiveWordRepeats = 2) :=
  ⟨by decide, c9_repeats_below_one_default (JsNum.num 0) (JsNum.num 12) 0 (by decide)⟩

/-! ## The sample queue (`sampleBuffers` / `samplesCollected`) -/

/-- Queue state of the recorder: the pending sample blocks
(`this.sampleBuffers`) and the running count (`this.samplesCollected`).
The count is an integer because `takeSamples` subtracts unconditionally. -/
structure SQueue where
  sampleBuffers : List (List ℚ)
  samplesCollected : ℤ
deriving DecidableEq

/-- Data-model invariant: the running count equals the total number of
queued samples. -/
def SQueue.wf (st : SQueue) : Prop :=
  st.samplesCollected = (st.sampleBuffers.flatten.length : ℤ)

/-- Front-consuming copy loop of `takeSamples` (src/main.ts lines 367-380):
returns the samples actually copied and the remaining blocks, splitting the
block containing the boundary. -/
def takeLoop : List (List ℚ) → ℕ → List ℚ × List (List ℚ)
  | bs, 0 => ([], bs)
  | [], _ + 1 => ([], [])
  | b :: bs, n + 1 =>
    if b.length ≤ n + 1 then
      let r := takeLoop bs (n + 1 - b.length)
      (b ++ r.1, r.2)
    else (b.take (n + 1), b.drop (n + 1) :: bs)

/-- Embedding of `takeSamples` (src/main.ts lines 363-384): the output array
is zero-initialised with length `count`, filled from the front of the queue,
and the running count is decremented by `count` unconditionally. -/
def takeSamples (st : SQueue) (count : ℕ) : List ℚ × SQueue :=
  let r := takeLoop st.sampleBuffers count
  (r.1 ++ List.replicate (count - r.1.length) 0,
    ⟨r.2, st.samplesCollected - count⟩)

/-- Front-discarding loop of `discardSamples` (src/main.ts lines 396-406). -/
def dropLoop : List (List ℚ) → ℕ → List (List ℚ)
  | bs, 0 => bs
  | [], _ + 1 => []
  | b :: bs, r + 1 =>
    if b.length ≤ r + 1 then dropLoop bs (r + 1 - b.length)
    else b.drop (r + 1) :: bs

/-- Embedding of `discardSamples` (src/main.ts lines 395-408). -/
def discardSamples (st : SQueue) (count : ℕ) : SQueue :=
  ⟨dropLoop st.sampleBuffers count, max 0 (st.samplesCollected - count)⟩

/-- Embedding of `trimBacklog` (src/main.ts lines 386-393) with
`maxSamples = samplesPerChunk * maxBufferedChunks`. -/
def trimBacklog (st : SQueue) (samplesPerChunk maxBufferedChunks : ℕ) : SQueue :=
  if st.samplesCollected ≤ ((samplesPerChunk * maxBufferedChunks : ℕ) : ℤ) then st
  else
    discardSamples st
      (st.samplesCollected - ((samplesPerChunk * maxBufferedChunks : ℕ) : ℤ)).toNat

/-- Push of one audio-callback block (src/main.ts lines 311-312). -/
def pushBlock (st : SQueue) (b : List ℚ) : SQueue :=
  ⟨st.sampleBuffers ++ [b], st.samplesCollected + b.length⟩

/-- Sequence of pushes. -/
def pushAll (st : SQueue) (bs : List (List ℚ)) : SQueue := bs.foldl pushBlock st

/-- Sequence of `takeSamples` calls, concatenating the returned arrays. -/
def runTakes : SQueue → List ℕ → List ℚ × SQueue
  | st, [] => ([], st)
  | st, n :: ns =>
    let r := takeSamples st n
    let rs := runTakes r.2 ns
    (r.1 ++ rs.1, rs.2)

lemma takeLoop_spec_le :
    ∀ (bs : List (List ℚ)) (n : ℕ), n ≤ bs.flatten.length →
      (takeLoop bs n).1 = bs.flatten.take n ∧
        (takeLoop bs n).2.flatten = bs.flatten.drop n := by
  intro bs
  induction bs with
  | nil =>
    intro n hn
    simp only [List.flatten_nil, List.length_nil, Nat.le_zero] at hn
    subst hn
    simp [takeLoop]
  | cons b bs ih =>
    intro n hn
    cases n with
    | zero => simp [takeLoop]
    | succ m =>
      simp only [List.flatten_cons, List.length_append] at hn
      by_cases h : b.length ≤ m + 1
      · have ih' := ih (m + 1 - b.length) (by omega)
        simp only [takeLoop, if_pos h, List.flatten_cons]
        constructor
        · rw [ih'.1, List.take_append_eq_append_take, List.take_of_length_le h]
        · rw [ih'.2, List.drop_append_eq_append_drop, List.drop_eq_nil_of_le h,
            List.nil_append]
      · push_neg at h
        simp only [takeLoop, if_neg (by omega : ¬ b.length ≤ m + 1), List.flatten_cons]
        constructor
        · rw [List.take_append_of_le_length (le_of_lt h)]
        · rw [List.drop_append_of_le_length (le_of_lt h)]

lemma takeLoop_spec_gt :
    ∀ (bs : List (List ℚ)) (n : ℕ), bs.flatten.length < n →
      (takeLoop bs n).1 = bs.flatten ∧ (takeLoop bs n).2 = [] := by
  intro bs
  induction bs with
  | nil =>
    intro n hn
    cases n with
    | zero => simp at hn
    | succ m => simp [takeLoop]
  | cons b bs ih =>
    intro n hn
    simp only [List.flatten_cons, List.length_append] at hn
    cases n with
    | zero => omega
    | succ m =>
      have h : b.length ≤ m + 1 := by omega
      have ih' := ih (m + 1 - b.length) (by omega)
      simp [takeLoop, if_pos h, List.flatten_cons, ih'.1, ih'.2]

lemma dropLoop_spec :
    ∀ (bs : List (List ℚ)) (c : ℕ), c ≤ bs.flatten.length →
      (dropLoop bs c).flatten = bs.flatten.drop c := by
  intro bs
  induction bs with
  | nil =>
    intro c hc
    simp only [List.flatten_nil, List.length_nil, Nat.le_zero] at hc
    subst hc
    simp [dropLoop]
  | cons b bs ih =>
    intro c hc
    cases c with
    | zero => simp [dropLoop]
    | succ m =>
      simp only [List.flatten_cons, List.length_append] at hc
      by_cases h : b.length ≤ m + 1
      · rw [dropLoop]
        simp only [if_pos h]
        rw [ih (m + 1 - b.length) (by omega), List.flatten_cons,
          List.drop_append_eq_append_drop, List.drop_eq_nil_of_le h, List.nil_append]
      · push_neg at h
        rw [dropLoop]
        simp only [if_neg (by omega : ¬ b.length ≤ m + 1), List.flatten_cons]
        rw [List.drop_append_of_le_length (le_of_lt h)]

/-- Behaviour of one `takeSamples` call, both when enough samples are queued
(returns the first n samples in order, drops them, decrements the count) and
when not (no failure: the missing part is fabricated as zeros, the buffers are
emptied, and the count still drops by n, possibly below zero). -/
def takeSpec (st : SQueue) (n : ℕ) : Prop :=
  ((n : ℤ) ≤ st.samplesCollected →
    (takeSamples st n).1 = st.sampleBuffers.flatten.take n ∧
      (takeSamples st n).2.samplesCollected = st.samplesCollected - n ∧
      (takeSamples st n).2.sampleBuffers.flatten = st.sampleBuffers.flatten.drop n) ∧
  (st.samplesCollected < (n : ℤ) →
    (takeSamples st n).1 =
        st.sampleBuffers.flatten ++
          List.replicate (n - st.sampleBuffers.flatten.length) 0 ∧
      (takeSamples st n).2.samplesCollected = st.samplesCollected - n ∧
      (takeSamples st n).2.sampleBuffers = [])

/-- C6 counterexample: with one queued sample, `takeSamples 2` does not fail
with `InsufficientData`; it returns a 2-element array padded with a zero and
drives the running count negative. -/
theorem c6_take_no_failure_counterexample :
    (takeSamples ⟨[[1]], 1⟩ 2).1 = [1, 0] ∧
      (takeSamples ⟨[[1]], 1⟩ 2).2 = ⟨[], -1⟩ := by
  constructor
  · rfl
  · rfl

/-- C6 (amended): on a well-formed queue, `takeSamples n` with n available
returns exactly the first n queued samples in order (splitting a block at the
boundary) and decrements the count by n; with fewer than n available it does
not fail, but returns the queued samples zero-padded to length n and still
decrements the count by n. -/
theorem c6_takeSamples_spec (st : SQueue) (n : ℕ) (hwf : st.wf) : takeSpec st n := by
  rw [SQueue.wf] at hwf
  constructor
  · intro hle
    have hn : n ≤ st.sampleBuffers.flatten.length := by omega
    have h1 := takeLoop_spec_le st.sampleBuffers n hn
    have hlen : (takeLoop st.sampleBuffers n).1.length = n := by
      rw [h1.1, List.length_take]
      omega
    refine ⟨?_, rfl, ?_⟩
    · show (takeLoop st.sampleBuffers n).1 ++
          List.replicate (n - (takeLoop st.sampleBuffers n).1.length) 0 =
          st.sampleBuffers.flatten.take n
      rw [hlen, Nat.sub_self, List.replicate_zero, List.append_nil, h1.1]
    · show (takeLoop st.sampleBuffers n).2.flatten =
          st.sampleBuffers.flatten.drop n
      exact h1.2
  · intro hgt
    have hn : st.sampleBuffers.flatten.length < n := by omega
    have h1 := takeLoop_spec_gt st.sampleBuffers n hn
    refine ⟨?_, rfl, ?_⟩
    · show (takeLoop st.sampleBuffers n).1 ++
          List.replicate (n - (takeLoop st.sampleBuffers n).1.length) 0 =
          st.sampleBuffers.flatten ++
            List.replicate (n - st.sampleBuffers.flatten.length) 0
      rw [h1.1]
    · show (takeLoop st.sampleBuffers n).2 = []
      exact h1.2

/-- Witness for C6's amended theorem on a concrete well-formed queue. -/
theorem c6_takeSamples_spec_witness :
    (⟨[[1, 2], [3]], 3⟩ : SQueue).wf ∧ takeSpec ⟨[[1, 2], [3]], 3⟩ 2 :=
  ⟨rfl, c6_takeSamples_spec ⟨[[1, 2], [3]], 3⟩ 2 rfl⟩

lemma runTakes_spec :
    ∀ (ns : List ℕ) (st : SQueue), st.wf → ((ns.sum : ℤ) ≤ st.samplesCollected) →
      (runTakes st ns).1 = st.sampleBuffers.flatten.take ns.sum ∧
        (runTakes st ns).2.wf ∧
        (runTakes st ns).2.sampleBuffers.flatten =
          st.sampleBuffers.flatten.drop ns.sum := by
  intro ns
  induction ns with
  | nil =>
    intro st hwf _
    exact ⟨by simp [runTakes], hwf, by simp [runTakes]⟩
  | cons n ns ih =>
    intro st hwf hsum
    rw [List.sum_cons, Nat.cast_add] at hsum
    rw [SQueue.wf] at hwf
    have hn : n ≤ st.sampleBuffers.flatten.length := by omega
    have h1 := takeLoop_spec_le st.sampleBuffers n hn
    have hlen : (takeLoop st.sampleBuffers n).1.length = n := by
      rw [h1.1, List.length_take]
      omega
    have hfst : (takeSamples st n).1 = st.sampleBuffers.flatten.take n := by
      show (takeLoop st.sampleBuffers n).1 ++
          List.replicate (n - (takeLoop st.sampleBuffers n).1.length) 0 =
          st.sampleBuffers.flatten.take n
      rw [hlen, Nat.sub_self, List.replicate_zero, List.append_nil, h1.1]
    have hsnd : (takeSamples st n).2.sampleBuffers.flatten =
        st.sampleBuffers.flatten.drop n := h1.2
    have hwf' : (takeSamples st n).2.wf := by
      rw [SQueue.wf, hsnd]
      show st.samplesCollected - (n : ℤ) =
        ((st.sampleBuffers.flatten.drop n).length : ℤ)
      rw [List.length_drop]
      omega
    have hsum' : ((ns.sum : ℤ)) ≤ (takeSamples st n).2.samplesCollected := by
      show ((ns.sum : ℤ)) ≤ st.samplesCollected - (n : ℤ)
      omega
    have ih' := ih (takeSamples st n).2 hwf' hsum'
    refine ⟨?_, ih'.2.1, ?_⟩
    · show (takeSamples st n).1 ++ (runTakes (takeSamples st n).2 ns).1 = _
      rw [ih'.1, hfst, hsnd, List.sum_cons, List.take_add]
    · show (runTakes (takeSamples st n).2 ns).2.sampleBuffers.flatten = _
      rw [ih'.2.2, hsnd, List.sum_cons, List.drop_drop, Nat.add_comm]

lemma pushAll_spec :
    ∀ (bs : List (List ℚ)) (st : SQueue),
      (pushAll st bs).sampleBuffers = st.sampleBuffers ++ bs ∧
        (pushAll st bs).samplesCollected =
          st.samplesCollected + (bs.flatten.length : ℤ) := by
  intro bs
  induction bs with
  | nil =>
    intro st
    simp [pushAll]
  | cons b bs ih =>
    intro st
    have hstep : pushAll st (b :: bs) = pushAll (pushBlock st b) bs := rfl
    rw [hstep]
    have ih' := ih (pushBlock st b)
    constructor
    · rw [ih'.1]
      simp [pushBlock]
    · rw [ih'.2]
      simp only [pushBlock, List.flatten_cons, List.length_append]
      push_cast
      ring

/-- C7: pushing any sequence of blocks into an empty queue and then taking
them back in any sequence of amounts totalling the pushed amount returns the
samples in their original concatenation order (FIFO across block splits). -/
theorem c7_fifo (bs : List (List ℚ)) (ns : List ℕ)
    (h : ns.sum = bs.flatten.length) :
    (runTakes (pushAll ⟨[], 0⟩ bs) ns).1 = bs.flatten := by
  have hp := pushAll_spec bs ⟨[], 0⟩
  have hwf : (pushAll ⟨[], 0⟩ bs).wf := by
    rw [SQueue.wf, hp.1, hp.2]
    simp
  have hs : ((ns.sum : ℤ)) ≤ (pushAll ⟨[], 0⟩ bs).samplesCollected := by
    rw [hp.2, h]
    simp
  have hr := (runTakes_spec ns _ hwf hs).1
  rw [hr, hp.1, List.nil_append, h, List.take_length]

/-- Witness for C7 with two pushed blocks taken back as 2 + 3 samples. -/
theorem c7_fifo_witness :
    ([2, 3] : List ℕ).sum = ([[1, 2], [3, 4, 5]] : List (List ℚ)).flatten.length ∧
      (runTakes (pushAll ⟨[], 0⟩ [[1, 2], [3, 4, 5]]) [2, 3]).1 =
        ([[1, 2], [3, 4, 5]] : List (List ℚ)).flatten :=
  ⟨rfl, c7_fifo [[1, 2], [3, 4, 5]] [2, 3] rfl⟩

/-- Behaviour of `trimBacklog`: the running count never exceeds the bound
afterwards, it becomes the minimum of the old count and the bound, and the
discarded samples are exactly the oldest (front) ones. -/
def trimSpec (st : SQueue) (spc mbc : ℕ) : Prop :=
  (trimBacklog st spc mbc).samplesCollected ≤ ((spc * mbc : ℕ) : ℤ) ∧
  (trimBacklog st spc mbc).samplesCollected =
    min st.samplesCollected ((spc * mbc : ℕ) : ℤ) ∧
  (trimBacklog st spc mbc).sampleBuffers.flatten =
    st.sampleBuffers.flatten.drop
      (st.samplesCollected - ((spc * mbc : ℕ) : ℤ)).toNat

/-- C8: on a well-formed queue, `trimBacklog` leaves at most
`samplesPerChunk * maxBufferedChunks` samples queued, discards exactly the
excess, and discards from the oldest end first (same splitting rule as
`takeSamples`). -/
theorem c8_trimBacklog_spec (st : SQueue) (spc mbc : ℕ) (hwf : st.wf) :
    trimSpec st spc mbc := by
  rw [SQueue.wf] at hwf
  unfold trimSpec trimBacklog
  by_cases hle : st.samplesCollected ≤ ((spc * mbc : ℕ) : ℤ)
  · rw [if_pos hle]
    refine ⟨hle, (min_eq_left hle).symm, ?_⟩
    have h0 : (st.samplesCollected - ((spc * mbc : ℕ) : ℤ)).toNat = 0 := by omega
    rw [h0, List.drop_zero]
  · push_neg at hle
    rw [if_neg (not_le.mpr hle)]
    have hov : (st.samplesCollected - ((spc * mbc : ℕ) : ℤ)).toNat ≤
        st.sampleBuffers.flatten.length := by omega
    have hd := dropLoop_spec st.sampleBuffers _ hov
    refine ⟨?_, ?_, hd⟩
    · simp only [discardSamples]
      omega
    · simp only [discardSamples]
      omega

/-- Witness for C8 on a concrete over-full queue (3 samples, bound 2). -/
theorem c8_trimBacklog_spec_witness :
    (⟨[[1], [2, 3]], 3⟩ : SQueue).wf ∧ trimSpec ⟨[[1], [2, 3]], 3⟩ 1 2 :=
  ⟨rfl, c8_trimBacklog_spec ⟨[[1], [2, 3]], 3⟩ 1 2 rfl⟩

/-! ## The silence gate (`isMostlySilence`) -/

/-- Running sum of squares accumulated by the loop in `isMostlySilence`
(src/main.ts lines 413-420). -/
noncomputable def sumSquares (samples : List ℝ) : ℝ :=
  samples.foldl (fun a v => a + v * v) 0

/-- Running peak of absolute values accumulated by the same loop. -/
noncomputable def peakAbs (samples : List ℝ) : ℝ :=
  samples.foldl (fun p v => max p |v|) 0

/-- Embedding of `isMostlySilence` (src/main.ts lines 410-424): the empty
block returns true immediately; otherwise the block is silence iff
`rms < threshold && peak < threshold * 4`.  Float arithmetic is modelled
over the reals. -/
def isMostlySilence (samples : List ℝ) (thr : ℝ) : Prop :=
  if samples.length = 0 then True
  else Real.sqrt (sumSquares samples / samples.length) < thr ∧ peakAbs samples < thr * 4

lemma sumSquares_eq (l : List ℝ) :
    sumSquares l = (l.map fun x => x ^ 2).sum := by
  have key : ∀ (c : ℝ), l.foldl (fun a v => a + v * v) c = c + (l.map fun x => x ^ 2).sum := by
    induction l with
    | nil => intro c; simp
    | cons x l ih =>
      intro c
      simp only [List.foldl_cons, List.map_cons, List.sum_cons, ih]
      ring
  rw [sumSquares, key 0, zero_add]

lemma foldl_max_abs_lt (l : List ℝ) :
    ∀ (c t : ℝ), l.foldl (fun p v => max p |v|) c < t ↔ c < t ∧ ∀ x ∈ l, |x| < t := by
  induction l with
  | nil => intro c t; simp
  | cons x l ih =>
    intro c t
    simp only [List.foldl_cons, ih, max_lt_iff, List.mem_cons]
    constructor
    · rintro ⟨⟨h1, h2⟩, h3⟩
      exact ⟨h1, fun y hy => hy.elim (fun e => e ▸ h2) (h3 y)⟩
    · rintro ⟨h1, h2⟩
      exact ⟨⟨h1, h2 x (Or.inl rfl)⟩, fun y hy => h2 y (Or.inr hy)⟩

/-- C3: `isMostlySilence` holds iff the block is empty, or both
RMS = sqrt(mean of squared samples) is strictly below the threshold and the
peak absolute sample is strictly below four times the threshold. -/
theorem c3_isMostlySilence_iff (samples : List ℝ) (thr : ℝ) :
    isMostlySilence samples thr ↔
      (samples = [] ∨
        (Real.sqrt ((samples.map fun x => x ^ 2).sum / samples.length) < thr ∧
          ∀ x ∈ samples, |x| < 4 * thr)) := by
  unfold isMostlySilence
  by_cases h : samples.length = 0
  · rw [if_pos h]
    simp [List.length_eq_zero.mp h]
  · rw [if_neg h]
    have hne : samples ≠ [] := fun e => h (by simp [e])
    constructor
    · rintro ⟨h1, h2⟩
      refine Or.inr ⟨?_, ?_⟩
      · rwa [sumSquares_eq] at h1
      · rw [peakAbs, foldl_max_abs_lt] at h2
        intro x hx
        have := h2.2 x hx
        linarith
    · intro hor
      rcases hor with he | ⟨h1, h2⟩
      · exact absurd he hne
      · refine ⟨by rwa [sumSquares_eq], ?_⟩
        rw [peakAbs, foldl_max_abs_lt]
        obtain ⟨x, hx⟩ := List.exists_mem_of_ne_nil samples hne
        have hax := h2 x hx
        have hnn := abs_nonneg x
        exact ⟨by linarith, fun y hy => by linarith [h2 y hy]⟩

/-! ## The WAV encoder (`encodeWav`) -/

/-- Little-endian bytes of a 16-bit unsigned write (`DataView.setUint16`). -/
def u16le (v : ℕ) : List ℕ := [v % 256, v / 256 % 256]

/-- Little-endian bytes of a 32-bit unsigned write (`DataView.setUint32`,
which wraps values modulo 2^32). -/
def u32le (v : ℕ) : List ℕ :=
  [v % 256, v / 256 % 256, v / 65536 % 256, v / 16777216 % 256]

/-- Little-endian bytes of a signed 16-bit write (`DataView.setInt16`). -/
def i16le (z : ℤ) : List ℕ := u16le (z % 65536).toNat

/-- Embedding of `encodeWav` (src/main.ts lines 535-571): the 44-byte
RIFF/WAVE/fmt /data header followed by the 16-bit PCM samples, all fields
little-endian exactly as the sequence of `writeString` / `setUint16` /
`setUint32` / `setInt16` calls lays them out. -/
def encodeWav (samples : List JsNum) (sampleRate : ℕ) : List ℕ :=
  let pcm := samples.map pcm16
  [82, 73, 70, 70] ++ u32le (36 + pcm.length * 2) ++
    [87, 65, 86, 69] ++ [102, 109, 116, 32] ++
    u32le 16 ++ u16le 1 ++ u16le 1 ++
    u32le sampleRate ++ u32le (sampleRate * 2) ++
    u16le 2 ++ u16le 16 ++
    [100, 97, 116, 97] ++ u32le (pcm.length * 2) ++
    (pcm.map i16le).flatten

/-- Decoder following the documented 44-byte header layout: checks the
`RIFF`, `WAVE`, `fmt ` and `data` magics and reads the little-endian sample
rate (bytes 24-27) and data size (bytes 40-43), returning the sample rate
and the sample count (data size / 2). -/
def decodeWavHeader : List ℕ → Option (ℕ × ℕ)
  | 82 :: 73 :: 70 :: 70 :: _ :: _ :: _ :: _ ::
    87 :: 65 :: 86 :: 69 ::
    102 :: 109 :: 116 :: 32 ::
    _ :: _ :: _ :: _ ::
    _ :: _ :: _ :: _ ::
    s0 :: s1 :: s2 :: s3 ::
    _ :: _ :: _ :: _ ::
    _ :: _ :: _ :: _ ::
    100 :: 97 :: 116 :: 97 ::
    d0 :: d1 :: d2 :: d3 :: _ =>
      some (s0 + 256 * s1 + 65536 * s2 + 16777216 * s3,
        (d0 + 256 * d1 + 65536 * d2 + 16777216 * d3) / 2)
  | _ => none

/-- Header and round-trip facts claimed for `encodeWav`: 44-byte header with
the chunk magics, PCM format tag 1, 1 channel, byte rate = sampleRate*2,
block align 2, 16 bits per sample, data size 2n, total length 44 + 2n, and
decoding recovers the sample rate and sample count exactly. -/
def wavSpec (samples : List JsNum) (sampleRate : ℕ) : Prop :=
  (encodeWav samples sampleRate).length = 44 + 2 * samples.length ∧
  (encodeWav samples sampleRate).take 4 = [82, 73, 70, 70] ∧
  ((encodeWav samples sampleRate).drop 8).take 4 = [87, 65, 86, 69] ∧
  ((encodeWav samples sampleRate).drop 12).take 4 = [102, 109, 116, 32] ∧
  ((encodeWav samples sampleRate).drop 20).take 2 = u16le 1 ∧
  ((encodeWav samples sampleRate).drop 22).take 2 = u16le 1 ∧
  ((encodeWav samples sampleRate).drop 28).take 4 = u32le (sampleRate * 2) ∧
  ((encodeWav samples sampleRate).drop 32).take 2 = u16le 2 ∧
  ((encodeWav samples sampleRate).drop 34).take 2 = u16le 16 ∧
  ((encodeWav samples sampleRate).drop 36).take 4 = [100, 97, 116, 97] ∧
  ((encodeWav samples sampleRate).drop 40).take 4 = u32le (2 * samples.length) ∧
  decodeWavHeader (encodeWav samples sampleRate) = some (sampleRate, samples.length)

lemma i16le_flatten_length (zs : List ℤ) :
    ((zs.map i16le).flatten).length = 2 * zs.length := by
  induction zs with
  | nil => simp
  | cons z zs ih =>
    have h2 : (i16le z).length = 2 := rfl
    simp only [List.map_cons, List.flatten_cons, List.length_append, ih, h2,
      List.length_cons]
    omega

set_option maxHeartbeats 2000000 in
/-- C5: for every sample block and every in-range sample rate, `encodeWav`
produces the documented 44-byte PCM WAV header (format tag 1, mono, block
align 2, 16 bits, byte rate sampleRate*2, data size 2n) and decoding the
output per that layout recovers the sample count and sample rate exactly. -/
theorem c5_encodeWav_header (samples : List JsNum) (sampleRate : ℕ)
    (h1 : sampleRate < 2 ^ 32) (h2 : 2 * samples.length < 2 ^ 32) :
    wavSpec samples sampleRate := by
  have hpl : (samples.map pcm16).length = samples.length := List.length_map _ _
  refine ⟨?_, rfl, rfl, rfl, rfl, rfl, rfl, rfl, rfl, rfl, ?_, ?_⟩
  · simp only [encodeWav, List.length_append, i16le_flatten_length, hpl,
      u32le, u16le, List.length_cons, List.length_nil]
    try omega
  · have h40 : ((encodeWav samples sampleRate).drop 40).take 4 =
        u32le ((samples.map pcm16).length * 2) := rfl
    rw [h40, hpl, Nat.mul_comm]
  · have hdec : decodeWavHeader (encodeWav samples sampleRate) =
        some (sampleRate % 256 + 256 * (sampleRate / 256 % 256) +
            65536 * (sampleRate / 65536 % 256) +
            16777216 * (sampleRate / 16777216 % 256),
          ((samples.map pcm16).length * 2 % 256 +
            256 * ((samples.map pcm16).length * 2 / 256 % 256) +
            65536 * ((samples.map pcm16).length * 2 / 65536 % 256) +
            16777216 * ((samples.map pcm16).length * 2 / 16777216 % 256)) / 2) := rfl
    rw [hpl] at hdec
    rw [hdec]
    have e1 : sampleRate % 256 + 256 * (sampleRate / 256 % 256) +
        65536 * (sampleRate / 65536 % 256) +
        16777216 * (sampleRate / 16777216 % 256) = sampleRate := by omega
    have e2 : (samples.length * 2 % 256 +
        256 * (samples.length * 2 / 256 % 256) +
        65536 * (samples.length * 2 / 65536 % 256) +
        16777216 * (samples.length * 2 / 16777216 % 256)) / 2 = samples.length := by
      omega
    rw [e1, e2]

/-- Witness for C5 at a one-sample block and sample rate 16000. -/
theorem c5_encodeWav_header_witness :
    16000 < 2 ^ 32 ∧ 2 * ([JsNum.num 0] : List JsNum).length < 2 ^ 32 ∧
      wavSpec [JsNum.num 0] 16000 :=
  ⟨by decide, by decide, c5_encodeWav_header [JsNum.num 0] 16000 (by decide) (by decide)⟩

/-! ## The transcript stitcher (`cleanTranscript`, `dedupeConsecutiveWords`)

Strings are `List Char`.  `isWs` models the JS `\s` class on the characters
that can actually occur here (ASCII whitespace); `jsToLower` models
`String.prototype.toLowerCase` on the Basic Latin and Latin-1 range. -/

/-- JS whitespace test (`\s`) restricted to ASCII whitespace. -/
def isWs (c : Char) : Bool :=
  c = ' ' || c = '\t' || c = '\n' || c = '\r' || c.toNat = 11 || c.toNat = 12

/-- JS `toLowerCase` on code points below 0x180: ASCII letters and Latin-1
uppercase letters (except the multiplication sign 0xD7) map down by 32. -/
def jsToLower (c : Char) : Char :=
  if 'A' ≤ c ∧ c ≤ 'Z' then Char.ofNat (c.toNat + 32)
  else if 0xC0 ≤ c.toNat ∧ c.toNat ≤ 0xDE ∧ c.toNat ≠ 0xD7 then Char.ofNat (c.toNat + 32)
  else c

/-- Characters kept by the normalisation regex `[^a-z0-9À-ſ]+` with
the `i` flag (applied after lowercasing). -/
def isWordChar (c : Char) : Bool :=
  ('a' ≤ c && c ≤ 'z') || ('A' ≤ c && c ≤ 'Z') || ('0' ≤ c && c ≤ '9') ||
    (0xC0 ≤ c.toNat && c.toNat ≤ 0x17F)

/-- Word normalisation from `dedupeConsecutiveWords` (src/main.ts line 510):
lowercase, then strip characters outside letters/digits/accented range. -/
def normalizeWord (t : List Char) : List Char := (t.map jsToLower).filter isWordChar

/-- JS `trimStart`. -/
def trimLeft (l : List Char) : List Char := l.dropWhile isWs

/-- Right half of JS `trim`. -/
def trimRight (l : List Char) : List Char := (l.reverse.dropWhile isWs).reverse

/-- JS `trim` (both ends). -/
def trimStr (l : List Char) : List Char := trimRight (trimLeft l)

/-- One pass of `replace(/\s+/g, ' ')`: each maximal whitespace run becomes a
single space.  The flag records whether the previous character was inside a
whitespace run. -/
def collapseAux : Bool → List Char → List Char
  | _, [] => []
  | inWs, c :: cs =>
    if isWs c then
      if inWs then collapseAux true cs else ' ' :: collapseAux true cs
    else c :: collapseAux false cs

/-- JS `replace(/\s+/g, ' ')`. -/
def collapseWs (l : List Char) : List Char := collapseAux false l

/-- JS `split(/(\s+)/)` (fuelled; the fuel `length + 1` always suffices):
alternating non-whitespace pieces and whitespace separators, with empty
pieces at the boundaries exactly as JS produces them. -/
def splitKeepWsF : ℕ → List Char → List (List Char)
  | 0, _ => []
  | f + 1, cs =>
    let w := cs.takeWhile (fun c => !isWs c)
    let rest := cs.dropWhile (fun c => !isWs c)
    if rest.isEmpty then [w]
    else w :: rest.takeWhile isWs :: splitKeepWsF f (rest.dropWhile isWs)

/-- JS `split(/(\s+)/)`. -/
def splitKeepWs (cs : List Char) : List (List Char) := splitKeepWsF (cs.length + 1) cs

/-- JS `split(/\s+/)` (fuelled): the pieces only, still with empty boundary
pieces when the string starts or ends with whitespace. -/
def splitWsJSF : ℕ → List Char → List (List Char)
  | 0, _ => []
  | f + 1, cs =>
    let w := cs.takeWhile (fun c => !isWs c)
    let rest := cs.dropWhile (fun c => !isWs c)
    if rest.isEmpty then [w]
    else w :: splitWsJSF f (rest.dropWhile isWs)

/-- JS `split(/\s+/)`. -/
def splitWsJS (cs : List Char) : List (List Char) := splitWsJSF (cs.length + 1) cs

/-- Test `/^\s+$/` used to recognise whitespace tokens. -/
def isWsToken (t : List Char) : Bool := !t.isEmpty && t.all isWs

/-- Token loop of `dedupeConsecutiveWords` (src/main.ts lines 512-530):
whitespace tokens pass through; a word token whose non-empty normalisation
equals `lastWord` bumps `repeatCount` and is dropped once the count reaches
`maxRepeats`; any other token resets the state and is emitted. -/
def dedupeTokens (maxRepeats : ℕ) :
    List (List Char) → List Char → ℕ → List (List Char)
  | [], _, _ => []
  | t :: ts, lastWord, repeatCount =>
    if isWsToken t then t :: dedupeTokens maxRepeats ts lastWord repeatCount
    else
      if normalizeWord t ≠ [] ∧ normalizeWord t = lastWord then
        if maxRepeats ≤ repeatCount + 1 then dedupeTokens maxRepeats ts lastWord (repeatCount + 1)
        else t :: dedupeTokens maxRepeats ts lastWord (repeatCount + 1)
      else t :: dedupeTokens maxRepeats ts (normalizeWord t) 0

/-- Embedding of `dedupeConsecutiveWords` (src/main.ts lines 502-533):
tokenize keeping whitespace, run the dedupe loop, join, collapse whitespace
runs to single spaces, and trim. -/
def dedupeConsecutiveWords (maxRepeats : ℕ) (text : List Char) : List Char :=
  if text = [] then text
  else trimStr (collapseWs (dedupeTokens maxRepeats (splitKeepWs text) [] 0).flatten)

/-- JS `Array.prototype.join(' ')`. -/
def joinSpace (ws : List (List Char)) : List Char := List.intercalate [' '] ws

/-- Join with spaces and lowercase, as in the phrase comparison of
`cleanTranscript` (src/main.ts lines 439-440). -/
def lowerPhrase (ws : List (List Char)) : List Char := (joinSpace ws).map jsToLower

/-- Lowercased phrase of the last k tail words (`prevWords.slice(-k)`). -/
def tailPhrase (pw : List (List Char)) (k : ℕ) : List Char :=
  lowerPhrase (pw.drop (pw.length - k))

/-- Lowercased phrase of the first k incoming words (`nextWords.slice(0, k)`). -/
def headPhrase (nw : List (List Char)) (k : ℕ) : List Char :=
  lowerPhrase (nw.take k)

/-- Countdown loop of `cleanTranscript` (src/main.ts lines 438-445): the
largest overlap length in [1, m] whose phrases match, if any. -/
def findOverlap (pw nw : List (List Char)) : ℕ → Option ℕ
  | 0 => none
  | k + 1 =>
    if tailPhrase pw (k + 1) = headPhrase nw (k + 1) then some (k + 1)
    else findOverlap pw nw k

/-- Embedding of `cleanTranscript` (src/main.ts lines 426-448).  The repeat
bound consumed by `dedupeConsecutiveWords` is passed explicitly. -/
def cleanTranscript (incoming previousTail : List Char) (maxRepeats : ℕ) : List Char :=
  if incoming = [] then incoming
  else
    if previousTail = [] then dedupeConsecutiveWords maxRepeats (trimLeft incoming)
    else
      match
        findOverlap (splitWsJS (trimStr previousTail)) (splitWsJS (trimLeft incoming))
          (min 6 (min (splitWsJS (trimStr previousTail)).length
            (splitWsJS (trimLeft incoming)).length)) with
      | some k =>
          dedupeConsecutiveWords maxRepeats
            (joinSpace ((splitWsJS (trimLeft incoming)).drop k))
      | none => dedupeConsecutiveWords maxRepeats (trimLeft incoming)

/-- Modelled from the claim's words (C2, as stated): a word token is dropped
exactly when its normalised form equals the previous word token's normalised
form and the repeat index has reached maxRepeats, with no requirement that
the normalised form be non-empty. -/
def dedupeNaiveTokens (maxRepeats : ℕ) :
    List (List Char) → Option (List Char) → ℕ → List (List Char)
  | [], _, _ => []
  | t :: ts, prevWord, idx =>
    if isWsToken t then t :: dedupeNaiveTokens maxRepeats ts prevWord idx
    else
      if prevWord = some (normalizeWord t) then
        if maxRepeats ≤ idx + 1 then dedupeNaiveTokens maxRepeats ts prevWord (idx + 1)
        else t :: dedupeNaiveTokens maxRepeats ts prevWord (idx + 1)
      else t :: dedupeNaiveTokens maxRepeats ts (some (normalizeWord t)) 0

/-- The C2 claim's emission rule as stated, applied over the same
tokenisation and final whitespace normalisation as the code. -/
def dedupeWordRuleClaim (maxRepeats : ℕ) (text : List Char) : List Char :=
  if text = [] then text
  else trimStr (collapseWs (dedupeNaiveTokens maxRepeats (splitKeepWs text) none 0).flatten)

/-- Amended emission rule (C2): as the claim states it, but a token counts as
a repeat only when its normalised form is non-empty. -/
def dedupeAmendTokens (maxRepeats : ℕ) :
    List (List Char) → Option (List Char) → ℕ → List (List Char)
  | [], _, _ => []
  | t :: ts, prevWord, idx =>
    if isWsToken t then t :: dedupeAmendTokens maxRepeats ts prevWord idx
    else
      if normalizeWord t ≠ [] ∧ prevWord = some (normalizeWord t) then
        if maxRepeats ≤ idx + 1 then dedupeAmendTokens maxRepeats ts prevWord (idx + 1)
        else t :: dedupeAmendTokens maxRepeats ts prevWord (idx + 1)
      else t :: dedupeAmendTokens maxRepeats ts (some (normalizeWord t)) 0

/-- The amended C2 rule over the same tokenisation and final whitespace
normalisation as the code. -/
def dedupeWordRuleAmended (maxRepeats : ℕ) (text : List Char) : List Char :=
  if text = [] then text
  else trimStr (collapseWs (dedupeAmendTokens maxRepeats (splitKeepWs text) none 0).flatten)

lemma dedupeTokens_amend_eq (maxRepeats : ℕ) :
    ∀ (ts : List (List Char)) (lw : List Char) (pw : Option (List Char)) (rc : ℕ),
      (pw = none ∧ lw = [] ∨ pw = some lw) →
      dedupeTokens maxRepeats ts lw rc = dedupeAmendTokens maxRepeats ts pw rc := by
  intro ts
  induction ts with
  | nil => intro lw pw rc _; rfl
  | cons t ts ih =>
    intro lw pw rc hinv
    by_cases hws : isWsToken t = true
    · simp only [dedupeTokens, dedupeAmendTokens, if_pos hws]
      rw [ih lw pw rc hinv]
    · simp only [dedupeTokens, dedupeAmendTokens, if_neg hws]
      by_cases hrep : normalizeWord t ≠ [] ∧ normalizeWord t = lw
      · have hrep2 : normalizeWord t ≠ [] ∧ pw = some (normalizeWord t) := by
          rcases hinv with ⟨h1, h2⟩ | h1
          · exact absurd (hrep.2.trans h2) hrep.1
          · exact ⟨hrep.1, by rw [h1, hrep.2]⟩
        rw [if_pos hrep, if_pos hrep2]
        by_cases hcut : maxRepeats ≤ rc + 1
        · rw [if_pos hcut, if_pos hcut]
          exact ih lw pw (rc + 1) hinv
        · rw [if_neg hcut, if_neg hcut, ih lw pw (rc + 1) hinv]
      · have hrep2 : ¬ (normalizeWord t ≠ [] ∧ pw = some (normalizeWord t)) := by
          intro hc
          apply hrep
          rcases hinv with ⟨h1, h2⟩ | h1
          · rw [h1] at hc
            exact absurd hc.2 (by simp)
          · refine ⟨hc.1, ?_⟩
            have h2 := hc.2
            rw [h1] at h2
            exact (Option.some.inj h2).symm
        rw [if_neg hrep, if_neg hrep2,
          ih (normalizeWord t) (some (normalizeWord t)) 0 (Or.inr rfl)]

/-- C2 counterexample: on the input ", ," with maxRepeats = 1 the claim's
rule (repeat = equal normalised form to the previous word) drops the second
comma (both commas normalise to the empty string), returning ",", but the
code never treats tokens with empty normalised form as repeats and returns
", ," unchanged. -/
theorem c2_dedupe_rule_counterexample :
    dedupeConsecutiveWords 1 ", ,".toList = ", ,".toList ∧
      dedupeWordRuleClaim 1 ", ,".toList = ",".toList ∧
      dedupeConsecutiveWords 1 ", ,".toList ≠ dedupeWordRuleClaim 1 ", ,".toList :=
  ⟨by decide, by decide, by decide⟩

/-- C2 (amended): for every input text and maxRepeats ≥ 1, the code's
`dedupeConsecutiveWords` emits each word token unless it is an immediate
repeat with non-empty normalised form whose repeat index has reached
maxRepeats (a different following word — or any token with empty normalised
form — resets the state); in particular dedupe("go go go go") with
maxRepeats = 2 returns "go go". -/
theorem c2_dedupe_rule (text : List Char) (maxRepeats : ℕ) (h : 1 ≤ maxRepeats) :
    dedupeConsecutiveWords maxRepeats text = dedupeWordRuleAmended maxRepeats text ∧
      dedupeConsecutiveWords 2 "go go go go".toList = "go go".toList := by
  refine ⟨?_, by decide⟩
  unfold dedupeConsecutiveWords dedupeWordRuleAmended
  by_cases he : text = []
  · rw [if_pos he, if_pos he]
  · rw [if_neg he, if_neg he,
      dedupeTokens_amend_eq maxRepeats (splitKeepWs text) [] none 0 (Or.inl ⟨rfl, rfl⟩)]

/-- Witness for C2's amended theorem at text "go go go go", maxRepeats 2. -/
theorem c2_dedupe_rule_witness :
    1 ≤ 2 ∧
      (dedupeConsecutiveWords 2 "go go go go".toList =
          dedupeWordRuleAmended 2 "go go go go".toList ∧
        dedupeConsecutiveWords 2 "go go go go".toList = "go go".toList) :=
  ⟨by decide, c2_dedupe_rule "go go go go".toList 2 (by decide)⟩

lemma collapseAux_mem_ws (l : List Char) :
    ∀ (b : Bool) (c : Char), c ∈ collapseAux b l → isWs c = true → c = ' ' := by
  induction l with
  | nil =>
    intro b c hc _
    simp [collapseAux] at hc
  | cons d cs ih =>
    intro b c hc hw
    by_cases hd : isWs d = true
    · cases b with
      | true =>
        simp only [collapseAux, if_pos hd] at hc
        exact ih true c hc hw
      | false =>
        simp only [collapseAux, if_pos hd] at hc
        rcases List.mem_cons.mp hc with h1 | h1
        · exact h1
        · exact ih true c h1 hw
    · cases b with
      | true =>
        simp only [collapseAux, if_neg hd] at hc
        rcases List.mem_cons.mp hc with h1 | h1
        · subst h1
          exact absurd hw hd
        · exact ih false c h1 hw
      | false =>
        simp only [collapseAux, if_neg hd] at hc
        rcases List.mem_cons.mp hc with h1 | h1
        · subst h1
          exact absurd hw hd
        · exact ih false c h1 hw

lemma collapseAux_true_head (l : List Char) :
    ∀ c, (collapseAux true l).head? = some c → isWs c = false := by
  induction l with
  | nil =>
    intro c hc
    simp [collapseAux] at hc
  | cons d cs ih =>
    intro c hc
    simp only [collapseAux] at hc
    by_cases hd : isWs d = true
    · rw [if_pos hd] at hc
      exact ih c hc
    · rw [if_neg hd] at hc
      simp only [List.head?_cons, Option.some.injEq] at hc
      subst hc
      simpa using hd

lemma collapseAux_chain (l : List Char) :
    ∀ b, List.Chain' (fun a c => ¬ (isWs a = true ∧ isWs c = true)) (collapseAux b l) := by
  induction l with
  | nil =>
    intro b
    simp [collapseAux]
  | cons d cs ih =>
    intro b
    by_cases hd : isWs d = true
    · cases b with
      | true =>
        simp only [collapseAux, if_pos hd]
        exact ih true
      | false =>
        simp only [collapseAux, if_pos hd]
        refine List.chain'_cons'.mpr ⟨?_, ih true⟩
        intro y hy
        have hf := collapseAux_true_head cs y (Option.mem_def.mp hy)
        intro hcon
        rw [hf] at hcon
        exact absurd hcon.2 (by simp)
    · cases b with
      | true =>
        simp only [collapseAux, if_neg hd]
        refine List.chain'_cons'.mpr ⟨?_, ih false⟩
        intro y _ hcon
        exact hd hcon.1
      | false =>
        simp only [collapseAux, if_neg hd]
        refine List.chain'_cons'.mpr ⟨?_, ih false⟩
        intro y _ hcon
        exact hd hcon.1

lemma trimStr_subset (l : List Char) :
    ∀ c, c ∈ trimStr l → c ∈ l := by
  intro c hc
  unfold trimStr trimRight trimLeft at hc
  rw [List.mem_reverse] at hc
  have h1 := (List.dropWhile_sublist isWs).subset hc
  rw [List.mem_reverse] at h1
  exact (List.dropWhile_sublist isWs).subset h1

lemma chain'_of_suffix {R : Char → Char → Prop} {l₁ l₂ : List Char}
    (hs : l₁ <:+ l₂) (h : List.Chain' R l₂) : List.Chain' R l₁ := by
  obtain ⟨t, rfl⟩ := hs
  exact (List.chain'_append.mp h).2.1

lemma chainWsR_reverse {l : List Char}
    (h : List.Chain' (fun a c => ¬ (isWs a = true ∧ isWs c = true)) l) :
    List.Chain' (fun a c => ¬ (isWs a = true ∧ isWs c = true)) l.reverse := by
  rw [List.chain'_reverse]
  exact h.imp fun a c hac hcon => hac ⟨hcon.2, hcon.1⟩

lemma trimStr_chain (l : List Char)
    (h : List.Chain' (fun a c => ¬ (isWs a = true ∧ isWs c = true)) l) :
    List.Chain' (fun a c => ¬ (isWs a = true ∧ isWs c = true)) (trimStr l) := by
  unfold trimStr trimRight trimLeft
  apply chainWsR_reverse
  apply chain'_of_suffix (List.dropWhile_suffix isWs)
  apply chainWsR_reverse
  exact chain'_of_suffix (List.dropWhile_suffix isWs) h

lemma head?_dropWhile_isWs (l : List Char) :
    ∀ c, (l.dropWhile isWs).head? = some c → isWs c = false := by
  induction l with
  | nil =>
    intro c hc
    simp at hc
  | cons d cs ih =>
    intro c hc
    by_cases hd : isWs d = true
    · rw [List.dropWhile_cons, if_pos hd] at hc
      exact ih c hc
    · rw [List.dropWhile_cons, if_neg hd] at hc
      simp only [List.head?_cons, Option.some.injEq] at hc
      subst hc
      simpa using hd

lemma head?_of_prefix {l₁ l₂ : List Char} {c : Char} (hp : l₁ <+: l₂)
    (hc : l₁.head? = some c) : l₂.head? = some c := by
  obtain ⟨t, rfl⟩ := hp
  cases l₁ with
  | nil => simp at hc
  | cons a l =>
    rw [List.cons_append, List.head?_cons]
    rw [List.head?_cons] at hc
    exact hc

lemma trimRight_prefix_self (l : List Char) : trimRight l <+: l := by
  unfold trimRight
  have h1 : (l.reverse.dropWhile isWs) <:+ l.reverse := List.dropWhile_suffix isWs
  have h2 := (List.reverse_prefix).mpr h1
  rwa [List.reverse_reverse] at h2

lemma getLast?_reverse_eq (m : List Char) : m.reverse.getLast? = m.head? := by
  rw [← List.head?_reverse, List.reverse_reverse]

lemma getLast?_trimRight (l : List Char) :
    ∀ c, (trimRight l).getLast? = some c → isWs c = false := by
  intro c hc
  unfold trimRight at hc
  rw [getLast?_reverse_eq] at hc
  exact head?_dropWhile_isWs _ c hc

lemma head?_trimStr (l : List Char) :
    ∀ c, (trimStr l).head? = some c → isWs c = false := by
  intro c hc
  have h2 := head?_of_prefix (trimRight_prefix_self (trimLeft l)) hc
  exact head?_dropWhile_isWs l c h2

/-- C10: the output of `dedupeConsecutiveWords` contains no whitespace other
than single spaces: every whitespace character in the output is a space, no
two adjacent output characters are both whitespace (runs are collapsed), and
the output neither starts nor ends with whitespace. -/
theorem c10_dedupe_whitespace (maxRepeats : ℕ) (text : List Char) :
    (∀ c ∈ dedupeConsecutiveWords maxRepeats text, isWs c = true → c = ' ') ∧
      List.Chain' (fun a b => ¬ (isWs a = true ∧ isWs b = true))
        (dedupeConsecutiveWords maxRepeats text) ∧
      (∀ c, (dedupeConsecutiveWords maxRepeats text).head? = some c → isWs c = false) ∧
      (∀ c, (dedupeConsecutiveWords maxRepeats text).getLast? = some c → isWs c = false) := by
  unfold dedupeConsecutiveWords
  by_cases he : text = []
  · subst he
    simp
  · rw [if_neg he]
    refine ⟨?_, ?_, ?_, ?_⟩
    · intro c hc hw
      have h1 := trimStr_subset _ c hc
      exact collapseAux_mem_ws _ false c h1 hw
    · exact trimStr_chain _ (collapseAux_chain _ false)
    · exact head?_trimStr _
    · intro c hc
      exact getLast?_trimRight _ c hc

lemma findOverlap_none (pw nw : List (List Char)) :
    ∀ m, findOverlap pw nw m = none →
      ∀ j, 0 < j → j ≤ m → tailPhrase pw j ≠ headPhrase nw j := by
  intro m
  induction m with
  | zero =>
    intro _ j hj hjm
    exact absurd hjm (by omega)
  | succ n ih =>
    intro hnone j hj hjm
    simp only [findOverlap] at hnone
    by_cases he : tailPhrase pw (n + 1) = headPhrase nw (n + 1)
    · rw [if_pos he] at hnone
      exact absurd hnone (by simp)
    · rw [if_neg he] at hnone
      by_cases hj' : j = n + 1
      · rw [hj']
        exact he
      · exact ih hnone j hj (by omega)

lemma findOverlap_some (pw nw : List (List Char)) :
    ∀ m k, findOverlap pw nw m = some k →
      0 < k ∧ k ≤ m ∧ tailPhrase pw k = headPhrase nw k ∧
        ∀ j, k < j → j ≤ m → tailPhrase pw j ≠ headPhrase nw j := by
  intro m
  induction m with
  | zero =>
    intro k hk
    simp [findOverlap] at hk
  | succ n ih =>
    intro k hk
    simp only [findOverlap] at hk
    by_cases he : tailPhrase pw (n + 1) = headPhrase nw (n + 1)
    · rw [if_pos he] at hk
      have hkk : n + 1 = k := by simpa using hk
      subst hkk
      refine ⟨by omega, le_refl _, he, ?_⟩
      intro j hj1 hj2
      exact absurd hj2 (by omega)
    · rw [if_neg he] at hk
      obtain ⟨h1, h2, h3, h4⟩ := ih k hk
      refine ⟨h1, by omega, h3, ?_⟩
      intro j hj1 hj2
      by_cases hj' : j = n + 1
      · rw [hj']
        exact he
      · exact h4 j hj1 (by omega)

/-- Merge behaviour claimed for `cleanTranscript` with a non-empty previous
tail: either some overlap length k in [1, min(6, |tailWords|, |incomingWords|)]
matches case-insensitively, is the largest matching length, and the result is
`dedupeConsecutiveWords` of the incoming fragment with its first k words
dropped (rejoined with single spaces); or no length matches and the result is
`dedupeConsecutiveWords` of the left-trimmed fragment unmodified. -/
def mergeOverlapSpec (incoming previousTail : List Char) (maxRepeats : ℕ) : Prop :=
  (∃ k, 0 < k ∧
    k ≤ min 6 (min (splitWsJS (trimStr previousTail)).length
      (splitWsJS (trimLeft incoming)).length) ∧
    tailPhrase (splitWsJS (trimStr previousTail)) k =
      headPhrase (splitWsJS (trimLeft incoming)) k ∧
    (∀ j, k < j →
      j ≤ min 6 (min (splitWsJS (trimStr previousTail)).length
        (splitWsJS (trimLeft incoming)).length) →
      tailPhrase (splitWsJS (trimStr previousTail)) j ≠
        headPhrase (splitWsJS (trimLeft incoming)) j) ∧
    cleanTranscript incoming previousTail maxRepeats =
      dedupeConsecutiveWords maxRepeats
        (joinSpace ((splitWsJS (trimLeft incoming)).drop k))) ∨
  ((∀ j, 0 < j →
      j ≤ min 6 (min (splitWsJS (trimStr previousTail)).length
        (splitWsJS (trimLeft incoming)).length) →
      tailPhrase (splitWsJS (trimStr previousTail)) j ≠
        headPhrase (splitWsJS (trimLeft incoming)) j) ∧
    cleanTranscript incoming previousTail maxRepeats =
      dedupeConsecutiveWords maxRepeats (trimLeft incoming))

/-- C1: with a non-empty previous tail, `cleanTranscript` drops the largest
case-insensitively matching overlap (length 1 to min(6, tail words, incoming
words)) from the front of the incoming fragment and dedupes the remainder,
or dedupes the left-trimmed fragment unmodified when no overlap matches; in
particular merging incoming "hello world" with tail "...said hello" returns
"world". -/
theorem c1_cleanTranscript_overlap (incoming previousTail : List Char)
    (maxRepeats : ℕ) (h : previousTail ≠ []) :
    mergeOverlapSpec incoming previousTail maxRepeats ∧
      cleanTranscript "hello world".toList "...said hello".toList 2 =
        "world".toList := by
  refine ⟨?_, by decide⟩
  unfold mergeOverlapSpec
  by_cases hinc : incoming = []
  · subst hinc
    cases hf : findOverlap (splitWsJS (trimStr previousTail))
        (splitWsJS (trimLeft ([] : List Char)))
        (min 6 (min (splitWsJS (trimStr previousTail)).length
          (splitWsJS (trimLeft ([] : List Char))).length)) with
    | none =>
      exact Or.inr ⟨findOverlap_none _ _ _ hf, rfl⟩
    | some k =>
      have hk := findOverlap_some _ _ _ k hf
      refine Or.inl ⟨k, hk.1, hk.2.1, hk.2.2.1, hk.2.2.2, ?_⟩
      have hlen : (splitWsJS (trimLeft ([] : List Char))).length = 1 := rfl
      have h2 := hk.2.1
      rw [hlen] at h2
      have hk1 : k = 1 := by
        have h1 := hk.1
        omega
      subst hk1
      rfl
  · cases hf : findOverlap (splitWsJS (trimStr previousTail))
        (splitWsJS (trimLeft incoming))
        (min 6 (min (splitWsJS (trimStr previousTail)).length
          (splitWsJS (trimLeft incoming)).length)) with
    | none =>
      refine Or.inr ⟨findOverlap_none _ _ _ hf, ?_⟩
      unfold cleanTranscript
      rw [if_neg hinc, if_neg h, hf]
    | some k =>
      have hk := findOverlap_some _ _ _ k hf
      refine Or.inl ⟨k, hk.1, hk.2.1, hk.2.2.1, hk.2.2.2, ?_⟩
      unfold cleanTranscript
      rw [if_neg hinc, if_neg h, hf]

/-- Witness for C1 at the claim's own example: incoming "hello world",
previous tail "...said hello", repeat bound 2. -/
theorem c1_cleanTranscript_overlap_witness :
    "...said hello".toList ≠ ([] : List Char) ∧
      (mergeOverlapSpec "hello world".toList "...said hello".toList 2 ∧
        cleanTranscript "hello world".toList "...said hello".toList 2 =
          "world".toList) :=
  ⟨by decide,
    c1_cleanTranscript_overlap "hello world".toList "...said hello".toList 2 (by decide)⟩
